import Mathlib

/-!
Verification of the real-time update-propagation core of collab-draw:
the client three-way merge (packages/web/components/projects/Project.tsx and
the enhanced variant), and the server subscriber registry with broadcast
fan-out (packages/api/graph/resolvers/resolver.go).
-/

namespace CollabDraw

/-- An Excalidraw element as the sync engine sees it: an id (unique within a
document), a monotonically increasing version, and an opaque payload standing
for all remaining shape data. -/
structure Element where
  id : String
  version : Nat
  payload : String
deriving DecidableEq

/-- JS `new Map(list.map(el => [el.id, el])).get(i)`: the last occurrence of a
key in the list wins, `none` when the key is absent. -/
def mapGet : List Element → String → Option Element
  | [], _ => none
  | el :: rest, i =>
    match mapGet rest i with
    | some e => some e
    | none => if el.id = i then some el else none

theorem mapGet_nil (i : String) : mapGet [] i = none := rfl

theorem mapGet_eq_some {xs : List Element} {i : String} {e : Element}
    (h : mapGet xs i = some e) : e.id = i ∧ e ∈ xs := by
  induction xs with
  | nil => simp [mapGet] at h
  | cons a rest ih =>
    cases hr : mapGet rest i with
    | some e2 =>
      simp only [mapGet, hr] at h
      obtain rfl := Option.some.inj h
      obtain ⟨h1, h2⟩ := ih hr
      exact ⟨h1, List.mem_cons_of_mem _ h2⟩
    | none =>
      simp only [mapGet, hr] at h
      by_cases ha : a.id = i
      · rw [if_pos ha] at h
        obtain rfl := Option.some.inj h
        exact ⟨ha, List.mem_cons_self _ _⟩
      · rw [if_neg ha] at h
        exact absurd h (by simp)

theorem mapGet_eq_none_iff {xs : List Element} {i : String} :
    mapGet xs i = none ↔ ∀ e ∈ xs, e.id ≠ i := by
  induction xs with
  | nil => simp [mapGet]
  | cons a rest ih =>
    cases hr : mapGet rest i with
    | some e2 =>
      simp only [mapGet, hr]
      constructor
      · intro h
        exact absurd h (by simp)
      · intro h
        obtain ⟨h1, h2⟩ := mapGet_eq_some hr
        exact absurd h1 (h e2 (List.mem_cons_of_mem _ h2))
    | none =>
      simp only [mapGet, hr]
      by_cases ha : a.id = i
      · rw [if_pos ha]
        constructor
        · intro h
          exact absurd h (by simp)
        · intro h
          exact absurd ha (h a (List.mem_cons_self _ _))
      · have hforall : (∀ e ∈ a :: rest, e.id ≠ i) ↔ True := by
          simp only [iff_true, List.forall_mem_cons]
          exact ⟨ha, ih.mp hr⟩
        rw [if_neg ha, hforall]
        simp

theorem mapGet_eq_some_of_mem {xs : List Element} {e : Element}
    (hmem : e ∈ xs) : ∃ e2, mapGet xs e.id = some e2 := by
  cases h : mapGet xs e.id with
  | some e2 => exact ⟨e2, rfl⟩
  | none => exact absurd rfl (mapGet_eq_none_iff.mp h e hmem)

theorem mapGet_ne_nil {xs : List Element} {i : String} {e : Element}
    (h : mapGet xs i = some e) : xs ≠ [] := by
  intro hnil
  rw [hnil] at h
  simp [mapGet] at h

/-- The body of the first loop of mergeElements, deciding which copy of an
element present in the incoming snapshot survives:
if the element exists locally and was modified since last sync
(current version strictly above last-synced version) and the current version
is at least the incoming one, the current copy wins; otherwise the incoming
copy is used. -/
def resolveIncoming (current lastSynced : List Element) (incomingEl : Element) : Element :=
  match mapGet current incomingEl.id, mapGet lastSynced incomingEl.id with
  | some currentEl, some lastSyncedEl =>
    if lastSyncedEl.version < currentEl.version then
      if incomingEl.version ≤ currentEl.version then currentEl else incomingEl
    else incomingEl
  | some _, none => incomingEl
  | none, _ => incomingEl

/-- mergeElements from Project.tsx (identical in the enhanced variant): on
first sync (empty last-synced) incoming replaces everything; otherwise the
result is every incoming element resolved against current and last-synced,
followed by the current elements absent from both incoming and last-synced
(brand-new local elements). The loop body is factored as resolveIncoming. -/
def mergeElements (current incoming lastSynced : List Element) : List Element :=
  if lastSynced = [] then incoming
  else
    incoming.map (resolveIncoming current lastSynced) ++
      current.filter fun currentEl =>
        (mapGet incoming currentEl.id).isNone && (mapGet lastSynced currentEl.id).isNone

theorem resolveIncoming_id (current lastSynced : List Element) (x : Element) :
    (resolveIncoming current lastSynced x).id = x.id := by
  unfold resolveIncoming
  cases hc : mapGet current x.id with
  | none => rfl
  | some c =>
    cases hl : mapGet lastSynced x.id with
    | none => rfl
    | some l =>
      by_cases h1 : l.version < c.version
      · by_cases h2 : x.version ≤ c.version
        · simp [h1, h2, (mapGet_eq_some hc).1]
        · simp [h1, h2]
      · simp [h1]

theorem resolveIncoming_eq_of_local_edit {current lastSynced : List Element}
    {x c l : Element} (hc : mapGet current x.id = some c)
    (hl : mapGet lastSynced x.id = some l) (hlocal : l.version < c.version)
    (hge : x.version ≤ c.version) :
    resolveIncoming current lastSynced x = c := by
  unfold resolveIncoming
  rw [hc, hl]
  simp [hlocal, hge]

theorem mergeElements_of_ne_nil {current incoming lastSynced : List Element}
    (h : lastSynced ≠ []) :
    mergeElements current incoming lastSynced =
      incoming.map (resolveIncoming current lastSynced) ++
        current.filter fun currentEl =>
          (mapGet incoming currentEl.id).isNone &&
            (mapGet lastSynced currentEl.id).isNone := by
  unfold mergeElements
  simp [h]

/-- Elements of the merge result with a given id, when that id has a
current copy locally edited above the last-synced version, are at least at
the current version. Shared backbone for the local-wins claims. -/
theorem mergeElements_version_lower_bound {current incoming lastSynced : List Element}
    {id : String} {c l : Element} (hc : mapGet current id = some c)
    (hl : mapGet lastSynced id = some l) (hlocal : l.version < c.version) :
    ∀ e ∈ mergeElements current incoming lastSynced, e.id = id →
      c.version ≤ e.version := by
  intro e he heid
  rw [mergeElements_of_ne_nil (mapGet_ne_nil hl)] at he
  rcases List.mem_append.mp he with hmem | hmem
  · obtain ⟨x, hx, hxe⟩ := List.mem_map.mp hmem
    have hxid : x.id = id := by rw [← heid, ← hxe, resolveIncoming_id]
    rw [← hxe]
    unfold resolveIncoming
    rw [hxid, hc, hl]
    by_cases h2 : x.version ≤ c.version
    · simp [hlocal, h2]
    · simp only [hlocal, if_true, h2, if_false]
      exact Nat.le_of_lt (Nat.lt_of_not_le h2)
  · obtain ⟨hecur, hcond⟩ := List.mem_filter.mp hmem
    rw [Bool.and_eq_true, Option.isNone_iff_eq_none, Option.isNone_iff_eq_none] at hcond
    rw [heid, hl] at hcond
    exact absurd hcond.2 (by simp)

/-- C1: three-way merge local-wins rule. For an element id carried by the
incoming snapshot, if current holds that id at a version strictly above the
last-synced version (a local edit since the last successful merge) and the
current version is at least the incoming one, the merge keeps the current
copy of the element, and every result element with that id is exactly the
current copy. -/
theorem mergeElements_local_wins (current incoming lastSynced : List Element)
    (id : String) (c l i : Element)
    (hnd : (incoming.map Element.id).Nodup)
    (hc : mapGet current id = some c) (hl : mapGet lastSynced id = some l)
    (hi : mapGet incoming id = some i)
    (hlocal : l.version < c.version) (hge : i.version ≤ c.version) :
    c ∈ mergeElements current incoming lastSynced ∧
      ∀ e ∈ mergeElements current incoming lastSynced, e.id = id → e = c := by
  obtain ⟨hiid, himem⟩ := mapGet_eq_some hi
  have hres : resolveIncoming current lastSynced i = c :=
    resolveIncoming_eq_of_local_edit (by rw [hiid]; exact hc)
      (by rw [hiid]; exact hl) hlocal hge
  constructor
  · rw [mergeElements_of_ne_nil (mapGet_ne_nil hl)]
    exact List.mem_append_left _ (List.mem_map.mpr ⟨i, himem, hres⟩)
  · intro e he heid
    rw [mergeElements_of_ne_nil (mapGet_ne_nil hl)] at he
    rcases List.mem_append.mp he with hmem | hmem
    · obtain ⟨x, hx, hxe⟩ := List.mem_map.mp hmem
      have hxid : x.id = id := by rw [← heid, ← hxe, resolveIncoming_id]
      have hxi : x = i :=
        List.inj_on_of_nodup_map hnd hx himem (by rw [hxid, hiid])
      rw [← hxe, hxi, hres]
    · obtain ⟨hecur, hcond⟩ := List.mem_filter.mp hmem
      rw [Bool.and_eq_true, Option.isNone_iff_eq_none,
        Option.isNone_iff_eq_none, heid, hi] at hcond
      exact absurd hcond.1 (by simp)

/-- Witness for C1: the spec scenario last-synced = X at version 1, current =
locally edited X at version 2, incoming = stale X at version 1; the merge
keeps X at version 2. -/
theorem mergeElements_local_wins_witness :
    (⟨"X", 2, "p2"⟩ : Element) ∈
      mergeElements [⟨"X", 2, "p2"⟩] [⟨"X", 1, "p1"⟩] [⟨"X", 1, "p1"⟩] :=
  (mergeElements_local_wins [⟨"X", 2, "p2"⟩] [⟨"X", 1, "p1"⟩] [⟨"X", 1, "p1"⟩]
    "X" ⟨"X", 2, "p2"⟩ ⟨"X", 1, "p1"⟩ ⟨"X", 1, "p1"⟩ (by decide) (by decide)
    (by decide) (by decide) (by decide) (by decide)).1

/-- C8 counterexample: with current = X at version 2, last-synced = X at
version 2 (no local edit pending) and a stale incoming carrying X at
version 1, the merge adopts the incoming copy, so X is present in current
at version 2 but in the merge result at version 1 < 2: synchronization does
decrement the version held for X. -/
theorem mergeElements_version_regression_counterexample :
    mapGet [⟨"X", 2, "pb"⟩] "X" = some ⟨"X", 2, "pb"⟩ ∧
      mergeElements [⟨"X", 2, "pb"⟩] [⟨"X", 1, "pc"⟩] [⟨"X", 2, "pa"⟩] =
        [⟨"X", 1, "pc"⟩] ∧
      mapGet [(⟨"X", 1, "pc"⟩ : Element)] "X" = some ⟨"X", 1, "pc"⟩ ∧
      (1 : Nat) < 2 := by decide

/-- C8 (amended): versions are never decremented by the merge for elements
with a pending local edit: if current holds the id at a version strictly
above the last-synced version, every merge-result element with that id has
a version at least the current one. (Without a pending local edit the code
adopts the incoming copy even when it is older than the current one.) -/
theorem mergeElements_no_regression_of_local_edit
    (current incoming lastSynced : List Element) (id : String) (c l : Element)
    (hc : mapGet current id = some c) (hl : mapGet lastSynced id = some l)
    (hlocal : l.version < c.version) :
    ∀ e ∈ mergeElements current incoming lastSynced, e.id = id →
      c.version ≤ e.version :=
  mergeElements_version_lower_bound hc hl hlocal

/-- Witness for amended C8: at the local-wins input the lone result element
for X has version at least 2. -/
theorem mergeElements_no_regression_of_local_edit_witness :
    (2 : Nat) ≤ (Element.mk "X" 2 "pb").version :=
  mergeElements_no_regression_of_local_edit
    [⟨"X", 2, "pb"⟩] [⟨"X", 1, "pc"⟩] [⟨"X", 1, "pa"⟩] "X"
    ⟨"X", 2, "pb"⟩ ⟨"X", 1, "pa"⟩ (by decide) (by decide) (by decide)
    ⟨"X", 2, "pb"⟩ (by decide) (by decide)

/-- C9: deletion and new-element rule. For an id present in current but
absent from incoming (with a non-empty last-synced snapshot): if the id is
also absent from last-synced, the brand-new local element is kept; if the
id is present in last-synced, the remote deletion propagates and no result
element carries that id. -/
theorem mergeElements_deletion_rule (current incoming lastSynced : List Element)
    (id : String) (c : Element) (hls : lastSynced ≠ [])
    (hc : mapGet current id = some c) (hinc : mapGet incoming id = none) :
    (mapGet lastSynced id = none →
      c ∈ mergeElements current incoming lastSynced) ∧
    ∀ l0, mapGet lastSynced id = some l0 →
      ∀ e ∈ mergeElements current incoming lastSynced, e.id ≠ id := by
  obtain ⟨hcid, hcmem⟩ := mapGet_eq_some hc
  constructor
  · intro hnone
    rw [mergeElements_of_ne_nil hls]
    refine List.mem_append_right _ (List.mem_filter.mpr ⟨hcmem, ?_⟩)
    rw [Bool.and_eq_true, Option.isNone_iff_eq_none, Option.isNone_iff_eq_none,
      hcid]
    exact ⟨hinc, hnone⟩
  · intro l0 hsome e he heid
    rw [mergeElements_of_ne_nil hls] at he
    rcases List.mem_append.mp he with hmem | hmem
    · obtain ⟨x, hx, hxe⟩ := List.mem_map.mp hmem
      have hxid : x.id = id := by rw [← heid, ← hxe, resolveIncoming_id]
      exact absurd hxid (mapGet_eq_none_iff.mp hinc x hx)
    · obtain ⟨hecur, hcond⟩ := List.mem_filter.mp hmem
      rw [Bool.and_eq_true, Option.isNone_iff_eq_none,
        Option.isNone_iff_eq_none, heid, hsome] at hcond
      exact absurd hcond.2 (by simp)

/-- Witness for C9: joint scenario. A brand-new local element N (absent from
incoming and last-synced) is kept, and in the spec deletion scenario with
last-synced = X,Y at version 1, incoming = X only, current = X,Y untouched,
the lone result element is X, whose id differs from the remotely deleted Y. -/
theorem mergeElements_deletion_rule_witness :
    (⟨"N", 1, "n"⟩ : Element) ∈
      mergeElements [⟨"X", 1, "p"⟩, ⟨"N", 1, "n"⟩] [⟨"X", 1, "p"⟩]
        [⟨"X", 1, "p"⟩] ∧
    (Element.mk "X" 1 "p").id ≠ "Y" :=
  ⟨(mergeElements_deletion_rule [⟨"X", 1, "p"⟩, ⟨"N", 1, "n"⟩] [⟨"X", 1, "p"⟩]
      [⟨"X", 1, "p"⟩] "N" ⟨"N", 1, "n"⟩ (by decide) (by decide) (by decide)).1
        (by decide),
    (mergeElements_deletion_rule [⟨"X", 1, "p"⟩, ⟨"Y", 1, "q"⟩] [⟨"X", 1, "p"⟩]
      [⟨"X", 1, "p"⟩, ⟨"Y", 1, "q"⟩] "Y" ⟨"Y", 1, "q"⟩ (by decide) (by decide)
      (by decide)).2 ⟨"Y", 1, "q"⟩ (by decide) ⟨"X", 1, "p"⟩ (by decide)⟩

theorem mapGet_isNone_eq_all (xs : List Element) (i : String) :
    (mapGet xs i).isNone = xs.all fun x => x.id != i := by
  rw [Bool.eq_iff_iff, Option.isNone_iff_eq_none, mapGet_eq_none_iff,
    List.all_eq_true]
  constructor
  · intro h x hx
    exact bne_iff_ne.mpr (h x hx)
  · intro h x hx
    exact bne_iff_ne.mp (h x hx)

/-- C10: structural guarantee of the merge. With pairwise-distinct ids in
current and incoming and a non-empty last-synced snapshot, the merge result
has pairwise-distinct ids, its id sequence is exactly incoming's ids in
incoming's order followed by the ids of the kept brand-new local elements
(current elements whose id is absent from both incoming and last-synced) in
current's order, and every result element's id comes from current or
incoming. -/
theorem mergeElements_structure (current incoming lastSynced : List Element)
    (hls : lastSynced ≠ [])
    (hcn : (current.map Element.id).Nodup)
    (hin : (incoming.map Element.id).Nodup) :
    ((mergeElements current incoming lastSynced).map Element.id).Nodup ∧
    (mergeElements current incoming lastSynced).map Element.id =
      incoming.map Element.id ++
        (current.filter fun e =>
          (incoming.all fun x => x.id != e.id) &&
            (lastSynced.all fun x => x.id != e.id)).map Element.id ∧
    ∀ e ∈ mergeElements current incoming lastSynced,
      (∃ x ∈ current, x.id = e.id) ∨ ∃ x ∈ incoming, x.id = e.id := by
  have hfeq : (current.filter fun e =>
      (mapGet incoming e.id).isNone && (mapGet lastSynced e.id).isNone) =
      current.filter fun e =>
        (incoming.all fun x => x.id != e.id) &&
          (lastSynced.all fun x => x.id != e.id) :=
    List.filter_congr fun a _ => by
      rw [mapGet_isNone_eq_all, mapGet_isNone_eq_all]
  have hmap : (incoming.map (resolveIncoming current lastSynced)).map Element.id
      = incoming.map Element.id := by
    rw [List.map_map]
    exact List.map_congr_left fun x _ => resolveIncoming_id current lastSynced x
  have heq : (mergeElements current incoming lastSynced).map Element.id =
      incoming.map Element.id ++
        (current.filter fun e =>
          (incoming.all fun x => x.id != e.id) &&
            (lastSynced.all fun x => x.id != e.id)).map Element.id := by
    rw [mergeElements_of_ne_nil hls, List.map_append, hmap, hfeq]
  refine ⟨?_, heq, ?_⟩
  · rw [heq, List.nodup_append]
    refine ⟨hin, ?_, ?_⟩
    · exact hcn.sublist ((List.filter_sublist _).map Element.id)
    · intro a ha hb
      obtain ⟨x, hx, hxa⟩ := List.mem_map.mp ha
      obtain ⟨e, he, hea⟩ := List.mem_map.mp hb
      obtain ⟨hemem, hecond⟩ := List.mem_filter.mp he
      rw [Bool.and_eq_true, List.all_eq_true] at hecond
      have := hecond.1 x hx
      rw [bne_iff_ne] at this
      exact this (by rw [hxa, hea])
  · intro e he
    rw [mergeElements_of_ne_nil hls] at he
    rcases List.mem_append.mp he with hmem | hmem
    · obtain ⟨x, hx, hxe⟩ := List.mem_map.mp hmem
      exact Or.inr ⟨x, hx, by rw [← hxe, resolveIncoming_id]⟩
    · obtain ⟨hemem, _⟩ := List.mem_filter.mp hmem
      exact Or.inl ⟨e, hemem, rfl⟩

/-- Witness for C10 at a concrete merge: current = X (version 2, locally
edited) plus brand-new N, incoming = stale X and remote-new R, last-synced =
X at version 1: id order is incoming's X, R then the kept local N. -/
theorem mergeElements_structure_witness :
    ((mergeElements [⟨"X", 2, "px"⟩, ⟨"N", 1, "n"⟩]
      [⟨"X", 1, "po"⟩, ⟨"R", 1, "r"⟩] [⟨"X", 1, "po"⟩]).map Element.id).Nodup ∧
    (mergeElements [⟨"X", 2, "px"⟩, ⟨"N", 1, "n"⟩]
      [⟨"X", 1, "po"⟩, ⟨"R", 1, "r"⟩] [⟨"X", 1, "po"⟩]).map Element.id =
      ([⟨"X", 1, "po"⟩, ⟨"R", 1, "r"⟩] : List Element).map Element.id ++
        (([⟨"X", 2, "px"⟩, ⟨"N", 1, "n"⟩] : List Element).filter fun e =>
          (([⟨"X", 1, "po"⟩, ⟨"R", 1, "r"⟩] : List Element).all
            fun x => x.id != e.id) &&
          (([⟨"X", 1, "po"⟩] : List Element).all
            fun x => x.id != e.id)).map Element.id :=
  ⟨(mergeElements_structure [⟨"X", 2, "px"⟩, ⟨"N", 1, "n"⟩]
      [⟨"X", 1, "po"⟩, ⟨"R", 1, "r"⟩] [⟨"X", 1, "po"⟩] (by decide) (by decide)
      (by decide)).1,
    (mergeElements_structure [⟨"X", 2, "px"⟩, ⟨"N", 1, "n"⟩]
      [⟨"X", 1, "po"⟩, ⟨"R", 1, "r"⟩] [⟨"X", 1, "po"⟩] (by decide) (by decide)
      (by decide)).2.1⟩

/-- The payload broadcast to subscribers (model.ProjectSubscription in the
Go backend), reduced to the fields the propagation core reads and writes:
the project id, the serialized element snapshot, and the SocketID marker
field set by broadcastProjectUpdate. -/
structure ProjectSubscription where
  id : String
  elements : String
  socketID : String
deriving DecidableEq

/-- State of a delivery channel. The subscription resolver creates each
channel as a buffered Go channel of capacity 1 (documented in the
subscription write-up shipped with the repository), so an open channel
holds at most one pending update; unsubscribeFromProject closes it. A
non-blocking select send on a closed channel panics in Go. -/
inductive ChanState where
  | closedCh : ChanState
  | openCh : Option ProjectSubscription → ChanState
deriving DecidableEq

/-- ProjectSubscriber from resolver.go: the minted token (field name keeps
the source spelling sockedID) and the delivery channel. -/
structure ProjectSubscriber where
  sockedID : String
  channel : ChanState
deriving DecidableEq

/-- The projectSubscribers map of the Resolver: document id to ordered
subscriber list, with the Go-map property that keys are looked up by
equality. -/
abbrev Registry := List (String × List ProjectSubscriber)

def lookupR : Registry → String → Option (List ProjectSubscriber)
  | [], _ => none
  | (k, v) :: rest, pid => if k = pid then some v else lookupR rest pid

/-- Go map assignment: replace the entry when the key is present, append it
otherwise. -/
def setKey (m : Registry) (k : String) (v : List ProjectSubscriber) : Registry :=
  if (lookupR m k).isSome then
    m.map fun kv => if kv.1 = k then (k, v) else kv
  else m ++ [(k, v)]

/-- Go map delete. -/
def delKey (m : Registry) (k : String) : Registry :=
  m.filter fun kv => kv.1 != k

/-- subscribeToProject from resolver.go: append a subscriber holding the
minted token (generateRandom8DigitString, passed here as a parameter) and
the session's freshly created open, empty, capacity-1 channel. -/
def subscribeToProject (m : Registry) (projectID socketID : String) : Registry :=
  setKey m projectID
    (((lookupR m projectID).getD []) ++ [⟨socketID, ChanState.openCh none⟩])

/-- Removal of the first subscriber carrying the given token, as the loop
with break in unsubscribeFromProject does. -/
def removeFirstSub : List ProjectSubscriber → String → List ProjectSubscriber
  | [], _ => []
  | s :: rest, sid =>
    if s.sockedID = sid then rest else s :: removeFirstSub rest sid

/-- The loop of unsubscribeFromProject: rewrite the entry with the first
matching subscriber removed (closing its channel, which thereby leaves the
registry); when no subscriber matches, the map is not rewritten. -/
def unsubStep1 (m : Registry) (projectID socketID : String) : Registry :=
  if ((lookupR m projectID).getD []).any fun s => s.sockedID == socketID then
    setKey m projectID
      (removeFirstSub ((lookupR m projectID).getD []) socketID)
  else m

/-- unsubscribeFromProject from resolver.go: run the removal loop, then
delete the map entry if the remaining subscriber list is empty. -/
def unsubscribeFromProject (m : Registry) (projectID socketID : String) : Registry :=
  if ((lookupR (unsubStep1 m projectID socketID) projectID).getD []).isEmpty then
    delKey (unsubStep1 m projectID socketID) projectID
  else unsubStep1 m projectID socketID

/-- Non-blocking select send of the Go source: a send on an open empty
channel succeeds; on a full channel the default branch skips; a send on a
closed channel panics (modelled as none). -/
def trySend (ch : ChanState) (u : ProjectSubscription) :
    Option (ChanState × Bool) :=
  match ch with
  | ChanState.closedCh => none
  | ChanState.openCh (some v) => some (ChanState.openCh (some v), false)
  | ChanState.openCh none => some (ChanState.openCh (some u), true)

/-- Effect of one loop iteration of broadcastProjectUpdate on one
subscriber, assuming its channel is open: the origin is skipped, a full
channel is left as it is, an empty channel receives the record whose
SocketID was just set to this subscriber's token. -/
def sendStep (u : ProjectSubscription) (fromID : String)
    (s : ProjectSubscriber) : ProjectSubscriber :=
  if s.sockedID = fromID then s
  else
    match s.channel with
    | ChanState.openCh none =>
      ⟨s.sockedID, ChanState.openCh (some { u with socketID := s.sockedID })⟩
    | _ => s

/-- The delivery produced by one loop iteration, if any. -/
def sentRec (u : ProjectSubscription) (fromID : String)
    (s : ProjectSubscriber) : Option (String × ProjectSubscription) :=
  if s.sockedID = fromID then none
  else
    match s.channel with
    | ChanState.openCh none => some (s.sockedID, { u with socketID := s.sockedID })
    | _ => none

/-- The subscriber loop of broadcastProjectUpdate: skip the origin token,
set project.SocketID to the subscriber's token, then attempt the
non-blocking send; a panic (send on closed channel) aborts with none. The
returned pair is the updated subscriber list and the list of performed
deliveries in order. -/
def broadcastList : List ProjectSubscriber → ProjectSubscription → String →
    Option (List ProjectSubscriber × List (String × ProjectSubscription))
  | [], _, _ => some ([], [])
  | s :: rest, u, fromID =>
    if s.sockedID = fromID then
      (broadcastList rest u fromID).map fun p => (s :: p.1, p.2)
    else
      match trySend s.channel { u with socketID := s.sockedID } with
      | none => none
      | some (ch2, sent) =>
        (broadcastList rest u fromID).map fun p =>
          (⟨s.sockedID, ch2⟩ :: p.1,
            if sent then (s.sockedID, { u with socketID := s.sockedID }) :: p.2
            else p.2)

/-- broadcastProjectUpdate from resolver.go: look the document up under the
read lock and run the subscriber loop; a document with no entry broadcasts
to nobody. -/
def broadcastProjectUpdate (m : Registry) (projectID : String)
    (u : ProjectSubscription) (fromID : String) :
    Option (Registry × List (String × ProjectSubscription)) :=
  match lookupR m projectID with
  | none => some (m, [])
  | some subs =>
    (broadcastList subs u fromID).map fun p => (setKey m projectID p.1, p.2)

def allOpen (subs : List ProjectSubscriber) : Prop :=
  ∀ s ∈ subs, s.channel ≠ ChanState.closedCh

instance decidableAllOpen (subs : List ProjectSubscriber) :
    Decidable (allOpen subs) :=
  inferInstanceAs (Decidable (∀ s ∈ subs, s.channel ≠ ChanState.closedCh))

def regAllOpen (m : Registry) : Prop := ∀ kv ∈ m, allOpen kv.2

def noEmptyEntry (m : Registry) : Prop := ∀ kv ∈ m, kv.2 ≠ []

/-- The operations the rest of the system performs on the registry: a
subscription (with its minted token), an unsubscription, and a broadcast
(whose delivery effect on the channels is kept, the panic case leaving the
state untouched; on the reachable states it never occurs). -/
inductive RegOp where
  | sub : String → String → RegOp
  | unsub : String → String → RegOp
  | bcast : String → ProjectSubscription → String → RegOp

def applyOp (m : Registry) : RegOp → Registry
  | RegOp.sub pid tok => subscribeToProject m pid tok
  | RegOp.unsub pid sid => unsubscribeFromProject m pid sid
  | RegOp.bcast pid u fromID =>
    match broadcastProjectUpdate m pid u fromID with
    | some (m2, _) => m2
    | none => m

/-- Registry states reachable from the initial empty map of NewResolver. -/
def applyOps (ops : List RegOp) : Registry := ops.foldl applyOp []

theorem lookupR_mem {m : Registry} {k : String} {v : List ProjectSubscriber}
    (h : lookupR m k = some v) : (k, v) ∈ m := by
  induction m with
  | nil => simp [lookupR] at h
  | cons kv rest ih =>
    obtain ⟨k0, v0⟩ := kv
    simp only [lookupR] at h
    by_cases hk : k0 = k
    · rw [if_pos hk] at h
      obtain rfl := Option.some.inj h
      rw [← hk]
      exact List.mem_cons_self _ _
    · rw [if_neg hk] at h
      exact List.mem_cons_of_mem _ (ih h)

theorem lookupR_eq_none_iff {m : Registry} {k : String} :
    lookupR m k = none ↔ ∀ kv ∈ m, kv.1 ≠ k := by
  induction m with
  | nil => simp [lookupR]
  | cons kv rest ih =>
    obtain ⟨k0, v0⟩ := kv
    simp only [lookupR]
    by_cases hk : k0 = k
    · rw [if_pos hk]
      constructor
      · intro h
        exact absurd h (by simp)
      · intro h
        exact absurd hk (h (k0, v0) (List.mem_cons_self _ _))
    · rw [if_neg hk, ih]
      constructor
      · intro h x hx
        rcases List.mem_cons.mp hx with rfl | hmem
        · exact hk
        · exact h x hmem
      · intro h x hx
        exact h x (List.mem_cons_of_mem _ hx)

theorem mem_setKey {m : Registry} {k : String} {v : List ProjectSubscriber}
    {kv : String × List ProjectSubscriber} (h : kv ∈ setKey m k v) :
    kv = (k, v) ∨ kv ∈ m := by
  unfold setKey at h
  by_cases hs : (lookupR m k).isSome
  · rw [if_pos hs] at h
    obtain ⟨kv0, hkv0, heq⟩ := List.mem_map.mp h
    by_cases hk : kv0.1 = k
    · rw [if_pos hk] at heq
      exact Or.inl heq.symm
    · rw [if_neg hk] at heq
      exact Or.inr (heq ▸ hkv0)
  · rw [if_neg hs] at h
    rcases List.mem_append.mp h with hmem | hmem
    · exact Or.inr hmem
    · exact Or.inl (List.mem_singleton.mp hmem)

theorem lookupR_cons_self (k : String) (v : List ProjectSubscriber)
    (rest : Registry) : lookupR ((k, v) :: rest) k = some v := by
  rw [lookupR]
  exact if_pos rfl

theorem lookupR_cons_ne {k0 k : String} (v : List ProjectSubscriber)
    (rest : Registry) (h : k0 ≠ k) :
    lookupR ((k0, v) :: rest) k = lookupR rest k := by
  rw [lookupR]
  exact if_neg h

theorem lookupR_map_replace {m : Registry} {k : String}
    (v : List ProjectSubscriber) (hs : (lookupR m k).isSome) :
    lookupR (m.map fun kv => if kv.1 = k then (k, v) else kv) k = some v := by
  induction m with
  | nil => simp [lookupR] at hs
  | cons kv0 rest ih =>
    obtain ⟨k0, v0⟩ := kv0
    by_cases hk : k0 = k
    · subst hk
      have hhead : (if ((k0, v0) : String × List ProjectSubscriber).1 = k0
          then (k0, v) else (k0, v0)) = (k0, v) := if_pos rfl
      rw [List.map_cons, hhead, lookupR_cons_self]
    · rw [lookupR_cons_ne v0 rest hk] at hs
      have hhead : (if ((k0, v0) : String × List ProjectSubscriber).1 = k
          then (k, v) else (k0, v0)) = (k0, v0) := if_neg hk
      rw [List.map_cons, hhead, lookupR_cons_ne _ _ hk]
      exact ih hs

theorem lookupR_append_single {m : Registry} {k : String}
    (v : List ProjectSubscriber) (hnone : lookupR m k = none) :
    lookupR (m ++ [(k, v)]) k = some v := by
  induction m with
  | nil => simp [lookupR]
  | cons kv0 rest ih =>
    obtain ⟨k0, v0⟩ := kv0
    by_cases hk : k0 = k
    · subst hk
      rw [lookupR_cons_self] at hnone
      exact absurd hnone (by simp)
    · rw [lookupR_cons_ne v0 rest hk] at hnone
      rw [List.cons_append, lookupR_cons_ne _ _ hk]
      exact ih hnone

theorem lookupR_setKey_self (m : Registry) (k : String)
    (v : List ProjectSubscriber) : lookupR (setKey m k v) k = some v := by
  unfold setKey
  by_cases hs : (lookupR m k).isSome
  · rw [if_pos hs]
    exact lookupR_map_replace v hs
  · rw [if_neg hs]
    refine lookupR_append_single v ?_
    cases h2 : lookupR m k with
    | none => rfl
    | some w => rw [h2] at hs; simp at hs

theorem mem_delKey {m : Registry} {k : String}
    {kv : String × List ProjectSubscriber} (h : kv ∈ delKey m k) : kv ∈ m :=
  (List.mem_filter.mp h).1

theorem lookupR_delKey_self (m : Registry) (k : String) :
    lookupR (delKey m k) k = none := by
  rw [lookupR_eq_none_iff]
  intro kv hkv
  have := (List.mem_filter.mp hkv).2
  exact bne_iff_ne.mp this

theorem delKey_of_absent {m : Registry} {k : String}
    (h : lookupR m k = none) : delKey m k = m := by
  apply List.filter_eq_self.mpr
  intro kv hkv
  exact bne_iff_ne.mpr (lookupR_eq_none_iff.mp h kv hkv)

theorem mem_removeFirstSub {subs : List ProjectSubscriber} {sid : String}
    {s : ProjectSubscriber} (h : s ∈ removeFirstSub subs sid) : s ∈ subs := by
  induction subs with
  | nil => simp [removeFirstSub] at h
  | cons a rest ih =>
    simp only [removeFirstSub] at h
    by_cases ha : a.sockedID = sid
    · rw [if_pos ha] at h
      exact List.mem_cons_of_mem _ h
    · rw [if_neg ha] at h
      rcases List.mem_cons.mp h with rfl | hmem
      · exact List.mem_cons_self _ _
      · exact List.mem_cons_of_mem _ (ih hmem)

theorem broadcastList_eq_of_allOpen {subs : List ProjectSubscriber}
    {u : ProjectSubscription} {fromID : String} (h : allOpen subs) :
    broadcastList subs u fromID =
      some (subs.map (sendStep u fromID), subs.filterMap (sentRec u fromID)) := by
  induction subs with
  | nil => rfl
  | cons s rest ih =>
    have hrest : allOpen rest := fun x hx => h x (List.mem_cons_of_mem _ hx)
    have hs := h s (List.mem_cons_self _ _)
    obtain ⟨ssid, sch⟩ := s
    by_cases hid : ssid = fromID
    · simp [broadcastList, hid, ih hrest, sendStep, sentRec]
    · cases sch with
      | closedCh => exact absurd rfl hs
      | openCh buf =>
        cases buf with
        | none =>
          simp [broadcastList, hid, trySend, ih hrest, sendStep, sentRec]
        | some v =>
          simp [broadcastList, hid, trySend, ih hrest, sendStep, sentRec]

theorem mem_keys_iff {m : Registry} {pid : String} :
    pid ∈ m.map Prod.fst ↔ (lookupR m pid).isSome := by
  induction m with
  | nil => simp [lookupR]
  | cons kv rest ih =>
    obtain ⟨k0, v0⟩ := kv
    by_cases hk : k0 = pid
    · subst hk
      simp [lookupR_cons_self]
    · rw [List.map_cons, lookupR_cons_ne v0 rest hk]
      simp only [List.mem_cons]
      constructor
      · intro h
        rcases h with h | hmem
        · exact absurd h.symm hk
        · exact ih.mp hmem
      · intro h
        exact Or.inr (ih.mpr h)

theorem sendStep_channel_ne_closed {u : ProjectSubscription} {fromID : String}
    {s : ProjectSubscriber} (h : s.channel ≠ ChanState.closedCh) :
    (sendStep u fromID s).channel ≠ ChanState.closedCh := by
  unfold sendStep
  by_cases hid : s.sockedID = fromID
  · rw [if_pos hid]
    exact h
  · rw [if_neg hid]
    cases hch : s.channel with
    | closedCh => exact absurd hch h
    | openCh buf =>
      cases buf with
      | none => simp
      | some v => simp [hch]

theorem sentRec_eq_some {u : ProjectSubscription} {fromID : String}
    {s : ProjectSubscriber} {p : String × ProjectSubscription}
    (h : sentRec u fromID s = some p) :
    s.sockedID ≠ fromID ∧ s.channel = ChanState.openCh none ∧
      p = (s.sockedID, { u with socketID := s.sockedID }) := by
  unfold sentRec at h
  by_cases hid : s.sockedID = fromID
  · rw [if_pos hid] at h
    exact absurd h (by simp)
  · rw [if_neg hid] at h
    cases hch : s.channel with
    | closedCh =>
      rw [hch] at h
      exact absurd h (by simp)
    | openCh buf =>
      cases buf with
      | none =>
        rw [hch] at h
        exact ⟨hid, rfl, (Option.some.inj h).symm⟩
      | some v =>
        rw [hch] at h
        exact absurd h (by simp)

theorem sentRec_eq_some_of_empty {u : ProjectSubscription} {fromID : String}
    {s : ProjectSubscriber} (hid : s.sockedID ≠ fromID)
    (hch : s.channel = ChanState.openCh none) :
    sentRec u fromID s = some (s.sockedID, { u with socketID := s.sockedID }) := by
  unfold sentRec
  rw [if_neg hid, hch]

theorem sendStep_of_origin {u : ProjectSubscription} {fromID : String}
    {s : ProjectSubscriber} (hid : s.sockedID = fromID) :
    sendStep u fromID s = s := by
  unfold sendStep
  rw [if_pos hid]

theorem sendStep_of_full {u : ProjectSubscription} {fromID : String}
    {s : ProjectSubscriber} {v : ProjectSubscription}
    (hch : s.channel = ChanState.openCh (some v)) :
    sendStep u fromID s = s := by
  unfold sendStep
  by_cases hid : s.sockedID = fromID
  · rw [if_pos hid]
  · rw [if_neg hid, hch]

theorem sentRec_of_full {u : ProjectSubscription} {fromID : String}
    {s : ProjectSubscriber} {v : ProjectSubscription}
    (hch : s.channel = ChanState.openCh (some v)) :
    sentRec u fromID s = none := by
  unfold sentRec
  by_cases hid : s.sockedID = fromID
  · rw [if_pos hid]
  · rw [if_neg hid, hch]

def keysNodup (m : Registry) : Prop := (m.map Prod.fst).Nodup

theorem keysNodup_setKey {m : Registry} (h : keysNodup m) (k : String)
    (v : List ProjectSubscriber) : keysNodup (setKey m k v) := by
  unfold setKey
  by_cases hs : (lookupR m k).isSome
  · rw [if_pos hs]
    unfold keysNodup
    rw [List.map_map]
    have : (Prod.fst ∘ fun kv : String × List ProjectSubscriber =>
        if kv.1 = k then (k, v) else kv) = Prod.fst := by
      funext kv
      by_cases hk : kv.1 = k
      · simp [Function.comp, hk]
      · simp [Function.comp, hk]
    rw [this]
    exact h
  · rw [if_neg hs]
    unfold keysNodup
    rw [List.map_append]
    rw [List.nodup_append]
    refine ⟨h, by simp, ?_⟩
    intro a ha hb
    simp only [List.map_cons, List.map_nil, List.mem_singleton] at hb
    subst hb
    have : (lookupR m a).isSome := mem_keys_iff.mp ha
    exact hs this

theorem keysNodup_delKey {m : Registry} (h : keysNodup m) (k : String) :
    keysNodup (delKey m k) :=
  h.sublist ((List.filter_sublist m).map Prod.fst)

theorem lookupR_of_mem {m : Registry} {k : String} {v : List ProjectSubscriber}
    (hnd : keysNodup m) (h : (k, v) ∈ m) : lookupR m k = some v := by
  induction m with
  | nil => simp at h
  | cons kv0 rest ih =>
    obtain ⟨k0, v0⟩ := kv0
    rcases List.mem_cons.mp h with heq | hmem
    · obtain ⟨rfl, rfl⟩ := Prod.mk.inj heq.symm
      exact lookupR_cons_self _ _ _
    · by_cases hk : k0 = k
      · subst hk
        have : k0 ∈ rest.map Prod.fst :=
          List.mem_map.mpr ⟨(k0, v), hmem, rfl⟩
        have hnd2 := (List.nodup_cons.mp hnd).1
        exact absurd this hnd2
      · rw [lookupR_cons_ne v0 rest hk]
        exact ih (List.nodup_cons.mp hnd).2 hmem

/-- Registry invariants maintained by every operation sequence: keys are
unique (a Go map), no entry holds an empty subscriber list, and every
channel stored in the registry is open (a channel is closed only at the
moment its subscriber is removed, under the same lock). -/
def RegInv (m : Registry) : Prop := keysNodup m ∧ noEmptyEntry m ∧ regAllOpen m

theorem keysNodup_unsubStep1 {m : Registry} (h : keysNodup m)
    (pid sid : String) : keysNodup (unsubStep1 m pid sid) := by
  unfold unsubStep1
  by_cases hany : ((lookupR m pid).getD []).any fun s => s.sockedID == sid
  · rw [if_pos hany]
    exact keysNodup_setKey h pid _
  · rw [if_neg hany]
    exact h

theorem regInv_sub {m : Registry} (h : RegInv m) (pid tok : String) :
    RegInv (subscribeToProject m pid tok) := by
  obtain ⟨hnd, hne, hop⟩ := h
  refine ⟨keysNodup_setKey hnd pid _, ?_, ?_⟩
  · intro kv hkv
    rcases mem_setKey hkv with rfl | hkv2
    · simp
    · exact hne kv hkv2
  · intro kv hkv
    rcases mem_setKey hkv with rfl | hkv2
    · intro s hsmem
      rcases List.mem_append.mp hsmem with hold | hnew
      · cases hlk : lookupR m pid with
        | none => rw [hlk] at hold; simp at hold
        | some subs =>
          rw [hlk] at hold
          exact hop (pid, subs) (lookupR_mem hlk) s hold
      · rw [List.mem_singleton.mp hnew]
        simp
    · exact hop kv hkv2

theorem unsubStep1_entries {m : Registry} (h : RegInv m)
    (pid sid : String) {kv : String × List ProjectSubscriber}
    (hkv : kv ∈ unsubStep1 m pid sid) :
    allOpen kv.2 ∧
      (kv ∈ m ∨ kv = (pid, removeFirstSub ((lookupR m pid).getD []) sid)) := by
  obtain ⟨hnd, hne, hop⟩ := h
  unfold unsubStep1 at hkv
  by_cases hany : ((lookupR m pid).getD []).any fun s => s.sockedID == sid
  · rw [if_pos hany] at hkv
    rcases mem_setKey hkv with rfl | hkv2
    · refine ⟨?_, Or.inr rfl⟩
      intro s hsmem
      have hsub := mem_removeFirstSub hsmem
      cases hlk : lookupR m pid with
      | none => rw [hlk] at hsub; simp at hsub
      | some subs =>
        rw [hlk] at hsub
        exact hop (pid, subs) (lookupR_mem hlk) s hsub
    · exact ⟨hop kv hkv2, Or.inl hkv2⟩
  · rw [if_neg hany] at hkv
    exact ⟨hop kv hkv, Or.inl hkv⟩

theorem regInv_unsub {m : Registry} (h : RegInv m) (pid sid : String) :
    RegInv (unsubscribeFromProject m pid sid) := by
  have hnd1 : keysNodup (unsubStep1 m pid sid) :=
    keysNodup_unsubStep1 h.1 pid sid
  unfold unsubscribeFromProject
  by_cases hemp : ((lookupR (unsubStep1 m pid sid) pid).getD []).isEmpty
  · rw [if_pos hemp]
    refine ⟨keysNodup_delKey hnd1 pid, ?_, ?_⟩
    · intro kv hkv
      have hm1 := mem_delKey hkv
      have hne2 := bne_iff_ne.mp (List.mem_filter.mp hkv).2
      rcases (unsubStep1_entries h pid sid hm1).2 with hmem | rfl
      · exact h.2.1 kv hmem
      · exact absurd rfl hne2
    · intro kv hkv
      exact (unsubStep1_entries h pid sid (mem_delKey hkv)).1
  · rw [if_neg hemp]
    refine ⟨hnd1, ?_, ?_⟩
    · intro kv hkv
      rcases (unsubStep1_entries h pid sid hkv).2 with hmem | heq
      · exact h.2.1 kv hmem
      · obtain ⟨k0, v0⟩ := kv
        obtain ⟨rfl, rfl⟩ := Prod.mk.inj heq
        intro hnil
        apply hemp
        rw [lookupR_of_mem hnd1 hkv]
        have hnil2 : removeFirstSub ((lookupR m k0).getD []) sid = [] := hnil
        simp [hnil2]
    · intro kv hkv
      exact (unsubStep1_entries h pid sid hkv).1

theorem regInv_bcast {m : Registry} (h : RegInv m) (pid : String)
    (u : ProjectSubscription) (fromID : String) :
    RegInv (applyOp m (RegOp.bcast pid u fromID)) := by
  obtain ⟨hnd, hne, hop⟩ := h
  simp only [applyOp]
  cases hlk : lookupR m pid with
  | none =>
    simp only [broadcastProjectUpdate, hlk]
    exact ⟨hnd, hne, hop⟩
  | some subs =>
    have hopen : allOpen subs := hop (pid, subs) (lookupR_mem hlk)
    simp only [broadcastProjectUpdate, hlk, broadcastList_eq_of_allOpen hopen,
      Option.map_some']
    refine ⟨keysNodup_setKey hnd pid _, ?_, ?_⟩
    · intro kv hkv
      rcases mem_setKey hkv with rfl | hkv2
      · have : subs ≠ [] := hne (pid, subs) (lookupR_mem hlk)
        simpa using this
      · exact hne kv hkv2
    · intro kv hkv
      rcases mem_setKey hkv with rfl | hkv2
      · intro s hsmem
        obtain ⟨x, hx, hxe⟩ := List.mem_map.mp hsmem
        rw [← hxe]
        exact sendStep_channel_ne_closed (hopen x hx)
      · exact hop kv hkv2

theorem regInv_applyOp {m : Registry} (h : RegInv m) (op : RegOp) :
    RegInv (applyOp m op) := by
  cases op with
  | sub pid tok => exact regInv_sub h pid tok
  | unsub pid sid => exact regInv_unsub h pid sid
  | bcast pid u fromID => exact regInv_bcast h pid u fromID

theorem regInv_foldl {m : Registry} (h : RegInv m) (ops : List RegOp) :
    RegInv (ops.foldl applyOp m) := by
  induction ops generalizing m with
  | nil => exact h
  | cons op rest ih => exact ih (regInv_applyOp h op)

theorem regInv_applyOps (ops : List RegOp) : RegInv (applyOps ops) := by
  apply regInv_foldl
  refine ⟨List.nodup_nil, ?_, ?_⟩ <;> intro kv hkv <;> simp at hkv

/-- C4: registry invariant. For every operation sequence from the empty
registry: a document id is a key exactly when its subscriber list is
non-empty; unsubscribing the last subscriber deletes the map entry (the
lookup afterwards finds nothing); and unsubscribing a token held by no
subscriber of the document leaves the registry unchanged. -/
theorem registry_key_iff_nonempty (ops : List RegOp) :
    (∀ pid, pid ∈ (applyOps ops).map Prod.fst ↔
      ((lookupR (applyOps ops) pid).getD []) ≠ []) ∧
    (∀ pid sid ch, lookupR (applyOps ops) pid = some [⟨sid, ch⟩] →
      lookupR (unsubscribeFromProject (applyOps ops) pid sid) pid = none) ∧
    (∀ pid sid, (∀ s ∈ ((lookupR (applyOps ops) pid).getD []),
        s.sockedID ≠ sid) →
      unsubscribeFromProject (applyOps ops) pid sid = applyOps ops) := by
  have hinv := regInv_applyOps ops
  refine ⟨?_, ?_, ?_⟩
  · intro pid
    rw [mem_keys_iff]
    constructor
    · intro hsome
      cases hlk : lookupR (applyOps ops) pid with
      | none => rw [hlk] at hsome; simp at hsome
      | some v =>
        simp only [Option.getD_some]
        exact hinv.2.1 (pid, v) (lookupR_mem hlk)
    · intro hne
      cases hlk : lookupR (applyOps ops) pid with
      | none => rw [hlk] at hne; simp at hne
      | some v => rfl
  · intro pid sid ch hlk
    have hsubs : (lookupR (applyOps ops) pid).getD [] = [⟨sid, ch⟩] := by
      rw [hlk]; rfl
    have hrem : removeFirstSub [⟨sid, ch⟩] sid = [] := by
      simp [removeFirstSub]
    have hstep : unsubStep1 (applyOps ops) pid sid =
        setKey (applyOps ops) pid [] := by
      unfold unsubStep1
      rw [hsubs]
      simp [hrem]
    unfold unsubscribeFromProject
    rw [hstep, lookupR_setKey_self]
    simp only [Option.getD_some, List.isEmpty_nil, if_true]
    exact lookupR_delKey_self _ _
  · intro pid sid hnone
    have hany : (((lookupR (applyOps ops) pid).getD []).any
        fun s => s.sockedID == sid) = false := by
      rw [List.any_eq_false]
      intro x hx
      simp only [beq_iff_eq]
      exact hnone x hx
    have hstep : unsubStep1 (applyOps ops) pid sid = applyOps ops := by
      unfold unsubStep1
      rw [hany]
      simp
    unfold unsubscribeFromProject
    rw [hstep]
    cases hlk : lookupR (applyOps ops) pid with
    | none =>
      simp only [Option.getD_none, List.isEmpty_nil, if_true]
      exact delKey_of_absent hlk
    | some v =>
      have hvne : v ≠ [] := hinv.2.1 (pid, v) (lookupR_mem hlk)
      have hemp : v.isEmpty = false := by
        cases v with
        | nil => exact absurd rfl hvne
        | cons a t => rfl
      simp [hemp]

/-- Witness for C4: after subscribing token t to document d, the key d is
present with a non-empty list; unsubscribing t deletes the entry;
unsubscribing an unknown token x changes nothing. -/
theorem registry_key_iff_nonempty_witness :
    ("d" ∈ (applyOps [RegOp.sub "d" "t"]).map Prod.fst ↔
      ((lookupR (applyOps [RegOp.sub "d" "t"]) "d").getD []) ≠ []) ∧
    lookupR (unsubscribeFromProject (applyOps [RegOp.sub "d" "t"]) "d" "t")
      "d" = none ∧
    unsubscribeFromProject (applyOps [RegOp.sub "d" "t"]) "d" "x" =
      applyOps [RegOp.sub "d" "t"] :=
  ⟨(registry_key_iff_nonempty [RegOp.sub "d" "t"]).1 "d",
    (registry_key_iff_nonempty [RegOp.sub "d" "t"]).2.1 "d" "t"
      (ChanState.openCh none) (by decide),
    (registry_key_iff_nonempty [RegOp.sub "d" "t"]).2.2 "d" "x" (by decide)⟩

/-- C2: broadcast fan-out. For a registry whose subscriber channels for the
document are open (as in every reachable state), Broadcast produces exactly
the pointwise channel update and delivery list in which every delivery goes
to a token different from the origin token, any subscriber carrying the
origin token is left untouched by the send step, and every non-origin
subscriber whose channel can accept a value (open and empty) receives the
update. -/
theorem broadcast_excludes_origin (m : Registry) (pid fromID : String)
    (u : ProjectSubscription) (subs : List ProjectSubscriber)
    (hsubs : lookupR m pid = some subs) (hopen : allOpen subs) :
    broadcastProjectUpdate m pid u fromID =
        some (setKey m pid (subs.map (sendStep u fromID)),
          subs.filterMap (sentRec u fromID)) ∧
      (∀ p ∈ subs.filterMap (sentRec u fromID), p.1 ≠ fromID) ∧
      (∀ s ∈ subs, s.sockedID = fromID → sendStep u fromID s = s) ∧
      (∀ s ∈ subs, s.sockedID ≠ fromID → s.channel = ChanState.openCh none →
        (s.sockedID, { u with socketID := s.sockedID }) ∈
          subs.filterMap (sentRec u fromID)) := by
  refine ⟨?_, ?_, ?_, ?_⟩
  · simp only [broadcastProjectUpdate, hsubs,
      broadcastList_eq_of_allOpen hopen, Option.map_some']
  · intro p hp
    obtain ⟨s, hs, hsr⟩ := List.mem_filterMap.mp hp
    obtain ⟨hid, _, rfl⟩ := sentRec_eq_some hsr
    exact hid
  · intro s hs hid
    exact sendStep_of_origin hid
  · intro s hs hid hch
    exact List.mem_filterMap.mpr ⟨s, hs, sentRec_eq_some_of_empty hid hch⟩

/-- Witness for C2: document d with subscribers O (the origin) and A, both
channels open and empty: A receives the update and O is left untouched. -/
theorem broadcast_excludes_origin_witness :
    ("A", ⟨"d", "els", "A"⟩) ∈
      ([⟨"O", ChanState.openCh none⟩, ⟨"A", ChanState.openCh none⟩] :
        List ProjectSubscriber).filterMap
          (sentRec ⟨"d", "els", ""⟩ "O") ∧
    sendStep ⟨"d", "els", ""⟩ "O" ⟨"O", ChanState.openCh none⟩ =
      ⟨"O", ChanState.openCh none⟩ :=
  ⟨(broadcast_excludes_origin
      [("d", [⟨"O", ChanState.openCh none⟩, ⟨"A", ChanState.openCh none⟩])]
      "d" "O" ⟨"d", "els", ""⟩
      [⟨"O", ChanState.openCh none⟩, ⟨"A", ChanState.openCh none⟩]
      (by decide) (by decide)).2.2.2
      ⟨"A", ChanState.openCh none⟩ (by decide) (by decide) rfl,
    (broadcast_excludes_origin
      [("d", [⟨"O", ChanState.openCh none⟩, ⟨"A", ChanState.openCh none⟩])]
      "d" "O" ⟨"d", "els", ""⟩
      [⟨"O", ChanState.openCh none⟩, ⟨"A", ChanState.openCh none⟩]
      (by decide) (by decide)).2.2.1
      ⟨"O", ChanState.openCh none⟩ (by decide) rfl⟩

/-- C3 counterexample: broadcasting to document d with one subscriber A
and origin token O delivers a record whose socket-ID field is A, the
recipient's token, not the origin token O. -/
theorem broadcast_origin_marker_counterexample :
    broadcastProjectUpdate [("d", [⟨"A", ChanState.openCh none⟩])] "d"
        ⟨"d", "els", "O"⟩ "O" =
      some ([("d", [⟨"A", ChanState.openCh (some ⟨"d", "els", "A"⟩)⟩])],
        [("A", ⟨"d", "els", "A"⟩)]) ∧
      (ProjectSubscription.mk "d" "els" "A").socketID ≠ "O" := by decide

/-- C3 (amended): every update record Broadcast delivers carries in its
socket-ID field the receiving subscriber's own token (the per-subscriber
marker the code writes just before each send, which the client reads to
learn its own token), and that token is never the origin token. -/
theorem broadcast_marker_is_recipient (m : Registry) (pid fromID : String)
    (u : ProjectSubscription) (subs : List ProjectSubscriber)
    (hsubs : lookupR m pid = some subs) (hopen : allOpen subs) :
    ∀ m2 ds, broadcastProjectUpdate m pid u fromID = some (m2, ds) →
      ∀ p ∈ ds, p.2.socketID = p.1 ∧ p.1 ≠ fromID := by
  intro m2 ds hbc p hp
  simp only [broadcastProjectUpdate, hsubs,
    broadcastList_eq_of_allOpen hopen, Option.map_some'] at hbc
  obtain ⟨-, hds⟩ := Prod.mk.inj (Option.some.inj hbc)
  rw [← hds] at hp
  obtain ⟨s, hs, hsr⟩ := List.mem_filterMap.mp hp
  obtain ⟨hid, _, rfl⟩ := sentRec_eq_some hsr
  exact ⟨rfl, hid⟩

/-- Witness for C3 (amended): the delivered record of the counterexample
run carries the recipient token A, different from the origin O. -/
theorem broadcast_marker_is_recipient_witness :
    (ProjectSubscription.mk "d" "els" "A").socketID = "A" ∧
      ("A" : String) ≠ "O" :=
  broadcast_marker_is_recipient
    [("d", [⟨"A", ChanState.openCh none⟩])] "d" "O" ⟨"d", "els", "O"⟩
    [⟨"A", ChanState.openCh none⟩] (by decide) (by decide)
    [("d", [⟨"A", ChanState.openCh (some ⟨"d", "els", "A"⟩)⟩])]
    [("A", ⟨"d", "els", "A"⟩)] (by decide)
    ("A", ⟨"d", "els", "A"⟩) (by decide)

/-- C5: drop-on-full, no send on closed. On every reachable registry state
a broadcast returns a result (it never panics, hence never performs a send
on a closed channel: reachable states hold only open channels); a
subscriber with a full channel is skipped, its buffer keeping the old
value (the new update is neither queued nor retried and no error arises);
and the skip does not prevent delivery to every other non-origin
subscriber with an open empty channel. -/
theorem broadcast_drop_on_full (ops : List RegOp) (pid fromID : String)
    (u : ProjectSubscription) :
    (∃ out, broadcastProjectUpdate (applyOps ops) pid u fromID = some out) ∧
    ∀ subs, lookupR (applyOps ops) pid = some subs →
      (broadcastProjectUpdate (applyOps ops) pid u fromID =
        some (setKey (applyOps ops) pid (subs.map (sendStep u fromID)),
          subs.filterMap (sentRec u fromID)) ∧
      (∀ s ∈ subs, ∀ v, s.channel = ChanState.openCh (some v) →
        sendStep u fromID s = s ∧ sentRec u fromID s = none) ∧
      (∀ s ∈ subs, s.sockedID ≠ fromID → s.channel = ChanState.openCh none →
        (s.sockedID, { u with socketID := s.sockedID }) ∈
          subs.filterMap (sentRec u fromID))) := by
  have hinv := regInv_applyOps ops
  have hkey : ∀ subs, lookupR (applyOps ops) pid = some subs → allOpen subs :=
    fun subs hlk => hinv.2.2 (pid, subs) (lookupR_mem hlk)
  constructor
  · cases hlk : lookupR (applyOps ops) pid with
    | none => exact ⟨(applyOps ops, []), by simp [broadcastProjectUpdate, hlk]⟩
    | some subs =>
      refine ⟨(setKey (applyOps ops) pid (subs.map (sendStep u fromID)),
        subs.filterMap (sentRec u fromID)), ?_⟩
      simp only [broadcastProjectUpdate, hlk,
        broadcastList_eq_of_allOpen (hkey subs hlk), Option.map_some']
  · intro subs hlk
    refine ⟨?_, ?_, ?_⟩
    · simp only [broadcastProjectUpdate, hlk,
        broadcastList_eq_of_allOpen (hkey subs hlk), Option.map_some']
    · intro s hs v hch
      exact ⟨sendStep_of_full hch, sentRec_of_full hch⟩
    · intro s hs hid hch
      exact List.mem_filterMap.mpr ⟨s, hs, sentRec_eq_some_of_empty hid hch⟩

/-- Witness for C5: the reachable state built by subscribing A and B,
broadcasting once from A (which fills B's channel), then subscribing C.
A further broadcast from A skips the full subscriber B, leaving its buffer
holding the old update, while still delivering to C. -/
theorem broadcast_drop_on_full_witness :
    broadcastProjectUpdate
        (applyOps [RegOp.sub "d" "A", RegOp.sub "d" "B",
          RegOp.bcast "d" ⟨"d", "e0", ""⟩ "A", RegOp.sub "d" "C"])
        "d" ⟨"d", "e1", ""⟩ "A" =
      some (setKey
          (applyOps [RegOp.sub "d" "A", RegOp.sub "d" "B",
            RegOp.bcast "d" ⟨"d", "e0", ""⟩ "A", RegOp.sub "d" "C"]) "d"
          (([⟨"A", ChanState.openCh none⟩,
            ⟨"B", ChanState.openCh (some ⟨"d", "e0", "B"⟩)⟩,
            ⟨"C", ChanState.openCh none⟩] :
              List ProjectSubscriber).map (sendStep ⟨"d", "e1", ""⟩ "A")),
        ([⟨"A", ChanState.openCh none⟩,
          ⟨"B", ChanState.openCh (some ⟨"d", "e0", "B"⟩)⟩,
          ⟨"C", ChanState.openCh none⟩] :
            List ProjectSubscriber).filterMap (sentRec ⟨"d", "e1", ""⟩ "A")) ∧
    sendStep ⟨"d", "e1", ""⟩ "A"
        ⟨"B", ChanState.openCh (some ⟨"d", "e0", "B"⟩)⟩ =
      ⟨"B", ChanState.openCh (some ⟨"d", "e0", "B"⟩)⟩ ∧
    sentRec ⟨"d", "e1", ""⟩ "A"
        ⟨"B", ChanState.openCh (some ⟨"d", "e0", "B"⟩)⟩ = none ∧
    ("C", ⟨"d", "e1", "C"⟩) ∈
      ([⟨"A", ChanState.openCh none⟩,
        ⟨"B", ChanState.openCh (some ⟨"d", "e0", "B"⟩)⟩,
        ⟨"C", ChanState.openCh none⟩] :
          List ProjectSubscriber).filterMap (sentRec ⟨"d", "e1", ""⟩ "A") := by
  have h := (broadcast_drop_on_full
    [RegOp.sub "d" "A", RegOp.sub "d" "B",
      RegOp.bcast "d" ⟨"d", "e0", ""⟩ "A", RegOp.sub "d" "C"]
    "d" "A" ⟨"d", "e1", ""⟩).2
    [⟨"A", ChanState.openCh none⟩,
      ⟨"B", ChanState.openCh (some ⟨"d", "e0", "B"⟩)⟩,
      ⟨"C", ChanState.openCh none⟩] (by decide)
  exact ⟨h.1,
    (h.2.1 ⟨"B", ChanState.openCh (some ⟨"d", "e0", "B"⟩)⟩ (by decide)
      ⟨"d", "e0", "B"⟩ rfl).1,
    (h.2.1 ⟨"B", ChanState.openCh (some ⟨"d", "e0", "B"⟩)⟩ (by decide)
      ⟨"d", "e0", "B"⟩ rfl).2,
    h.2.2 ⟨"C", ChanState.openCh none⟩ (by decide) (by decide) rfl⟩

/-- Outcome of the updateProject mutation issued by a throttled send. -/
inductive SendOutcome where
  | success : SendOutcome
  | failure : SendOutcome
deriving DecidableEq

/-- Client-side sync state read and written by the throttled send of the
base Project.tsx: the session socket id (none until the subscription
delivers it) and the last-synced element snapshot. -/
structure ClientState where
  socketID : Option String
  lastSynced : List Element
deriving DecidableEq

/-- The timer-fire body of sendUpdate in the base Project.tsx: when a
socket id is present it issues the mutation with only a logging catch
handler attached and then immediately overwrites lastSyncedElementsRef
with the sent elements; the overwrite does not wait for, or depend on,
the outcome of the send. -/
def sendUpdateFire (st : ClientState) (elements : List Element)
    (_outcome : SendOutcome) : ClientState :=
  match st.socketID with
  | none => st
  | some _ => { st with lastSynced := elements }

/-- Connection status surfaced by the enhanced client variant. -/
inductive ConnStatus where
  | connected : ConnStatus
  | syncing : ConnStatus
  | disconnected : ConnStatus
deriving DecidableEq

/-- Client-side sync state of the enhanced variant (part_001): socket id,
last-synced snapshot, retry counter and surfaced connection status. -/
structure EnhState where
  socketID : Option String
  lastSynced : List Element
  retryCount : Nat
  status : ConnStatus
deriving DecidableEq

/-- MAX_RETRIES of the enhanced variant. -/
def MAX_RETRIES : Nat := 3

/-- The timer-fire body of sendUpdate in the enhanced variant (part_001):
with a socket id present, a successful await of the mutation sets status
connected, resets the retry counter and overwrites lastSynced with the
sent elements; a failure sets status disconnected and, while fewer than
MAX_RETRIES retries have been used, increments the counter and schedules a
retry of the same elements after 1000 * retryCount milliseconds (the
counter value after the increment). The option carries the scheduled retry
delay and its payload. -/
def sendUpdateFireEnhanced (st : EnhState) (elements : List Element)
    (outcome : SendOutcome) : EnhState × Option (Nat × List Element) :=
  match st.socketID with
  | none => (st, none)
  | some _ =>
    match outcome with
    | SendOutcome.success =>
      (⟨st.socketID, elements, 0, ConnStatus.connected⟩, none)
    | SendOutcome.failure =>
      if st.retryCount < MAX_RETRIES then
        (⟨st.socketID, st.lastSynced, st.retryCount + 1,
            ConnStatus.disconnected⟩,
          some (1000 * (st.retryCount + 1), elements))
      else
        (⟨st.socketID, st.lastSynced, st.retryCount,
          ConnStatus.disconnected⟩, none)

/-- C6: the base Project.tsx overwrites last-synced at send initiation.
Firing the throttled send of elements X at version 2 while last-synced
holds X at version 1 and having the send fail still leaves last-synced at
the sent elements, not the previous value; the enhanced variant keeps the
previous value on failure. -/
theorem sendUpdateFire_overwrites_on_failure :
    (sendUpdateFire ⟨some "A", [⟨"X", 1, "p1"⟩]⟩ [⟨"X", 2, "p2"⟩]
      SendOutcome.failure).lastSynced = [⟨"X", 2, "p2"⟩] ∧
    ([⟨"X", 2, "p2"⟩] : List Element) ≠ [⟨"X", 1, "p1"⟩] ∧
    (sendUpdateFireEnhanced ⟨some "A", [⟨"X", 1, "p1"⟩], 0,
      ConnStatus.connected⟩ [⟨"X", 2, "p2"⟩]
      SendOutcome.failure).1.lastSynced = [⟨"X", 1, "p1"⟩] := by decide

/-- C7 counterexample: a single failed send from a fresh enhanced state
(retry count 0) surfaces the disconnected status immediately even though a
retry is still scheduled: the connectivity-degraded signal is not deferred
until the retries are exhausted. -/
theorem sendUpdate_retry_signal_counterexample :
    (sendUpdateFireEnhanced ⟨some "A", [], 0, ConnStatus.connected⟩
      [⟨"X", 1, "p"⟩] SendOutcome.failure).1.status =
        ConnStatus.disconnected ∧
    (sendUpdateFireEnhanced ⟨some "A", [], 0, ConnStatus.connected⟩
      [⟨"X", 1, "p"⟩] SendOutcome.failure).2 =
        some (1000, [⟨"X", 1, "p"⟩]) := by decide

/-- C7 (amended): in the enhanced client variant a failed outbound send is
retried at most MAX_RETRIES = 3 times with linear backoff — the n-th
consecutive failure schedules a retry after 1000 * n milliseconds carrying
the same elements — while the connectivity-degraded (disconnected) status
is surfaced on every failed attempt, not only after the retries are
exhausted; the pending local state is never discarded: a failure leaves
last-synced unchanged and the scheduled retry resends exactly the failed
elements. The base Project.tsx variant performs no retries. -/
theorem sendUpdate_retry_linear_backoff (st : EnhState)
    (elements : List Element) (hsock : st.socketID.isSome) :
    (sendUpdateFireEnhanced st elements SendOutcome.failure).1.status =
      ConnStatus.disconnected ∧
    (sendUpdateFireEnhanced st elements SendOutcome.failure).1.lastSynced =
      st.lastSynced ∧
    (st.retryCount < MAX_RETRIES →
      (sendUpdateFireEnhanced st elements SendOutcome.failure).2 =
        some (1000 * (st.retryCount + 1), elements)) ∧
    (MAX_RETRIES ≤ st.retryCount →
      (sendUpdateFireEnhanced st elements SendOutcome.failure).2 = none) ∧
    (sendUpdateFireEnhanced st elements SendOutcome.failure).1.retryCount ≤
      max st.retryCount MAX_RETRIES := by
  obtain ⟨sock, ls, rc, status⟩ := st
  cases sock with
  | none => simp at hsock
  | some sid =>
    refine ⟨?_, ?_, ?_, ?_, ?_⟩
    · by_cases hrc : rc < MAX_RETRIES <;> simp [sendUpdateFireEnhanced, hrc]
    · by_cases hrc : rc < MAX_RETRIES <;> simp [sendUpdateFireEnhanced, hrc]
    · intro h
      simp [sendUpdateFireEnhanced, h]
    · intro h
      have hno : ¬ rc < MAX_RETRIES := Nat.not_lt.mpr h
      simp [sendUpdateFireEnhanced, hno]
    · by_cases hrc : rc < MAX_RETRIES
      · simp only [sendUpdateFireEnhanced, hrc, if_true]
        exact le_trans (Nat.succ_le_of_lt hrc) (le_max_right _ _)
      · simp only [sendUpdateFireEnhanced, hrc, if_false]
        exact le_max_left _ _

/-- Witness for amended C7: one failure at retry count 1 surfaces the
disconnected status, keeps last-synced, and schedules a retry of the same
elements after 2000 ms. -/
theorem sendUpdate_retry_linear_backoff_witness :
    (sendUpdateFireEnhanced ⟨some "A", [⟨"X", 1, "p"⟩], 1,
      ConnStatus.connected⟩ [⟨"X", 2, "q"⟩] SendOutcome.failure).1.status =
        ConnStatus.disconnected ∧
    (sendUpdateFireEnhanced ⟨some "A", [⟨"X", 1, "p"⟩], 1,
      ConnStatus.connected⟩ [⟨"X", 2, "q"⟩]
        SendOutcome.failure).1.lastSynced = [⟨"X", 1, "p"⟩] ∧
    (sendUpdateFireEnhanced ⟨some "A", [⟨"X", 1, "p"⟩], 1,
      ConnStatus.connected⟩ [⟨"X", 2, "q"⟩] SendOutcome.failure).2 =
        some (2000, [⟨"X", 2, "q"⟩]) :=
  ⟨(sendUpdate_retry_linear_backoff ⟨some "A", [⟨"X", 1, "p"⟩], 1,
      ConnStatus.connected⟩ [⟨"X", 2, "q"⟩] (by decide)).1,
    (sendUpdate_retry_linear_backoff ⟨some "A", [⟨"X", 1, "p"⟩], 1,
      ConnStatus.connected⟩ [⟨"X", 2, "q"⟩] (by decide)).2.1,
    (sendUpdate_retry_linear_backoff ⟨some "A", [⟨"X", 1, "p"⟩], 1,
      ConnStatus.connected⟩ [⟨"X", 2, "q"⟩] (by decide)).2.2.1 (by decide)⟩
